import Mathlib

/-!
# Verification of the JSON-RAG-AST-Generator extraction/rebuild core

This file shallowly embeds the core of
`src/json_rag_ast_generator/json_rag_ast_generator.py`:

* `ExtractASTDefinitions.process_module` / `process_class` / `process_function`
  (the recursive walk producing the nested definition record), and
* `DefinitionRebuilder.rebuild_from_json` / `execute_rebuilt` /
  `rebuild_from_dict_or_json` (the rebuild algorithm with exact-copy fallback).

External collaborators (the Python parser `ast.parse`, the unparser
`ast.unparse`, the JSON codec, the compile-and-exec evaluator, and the
filesystem) are taken as parameters, as the specification treats them as
given.  Python library helpers whose behaviour the code depends on
(`str.splitlines`, `ast.get_docstring` with its `inspect.cleandoc`
normalisation, `dict` insertion-order semantics, the stability of `sorted`)
are modelled from their CPython definitions.
-/

namespace JRAG

/-! ## Python string helpers

`str.splitlines` — used by `process_module` for `endLine = len(code_string.splitlines())`.
Python splits at `\n`, `\r`, `\r\n` and the additional line boundaries
`\x0b`, `\x0c`, `\x1c`, `\x1d`, `\x1e`, `\x85`, U+2028, U+2029;
a trailing line break does not open a final empty line. -/

/-- The characters CPython's `str.splitlines` treats as line boundaries. -/
def isLineBreak (c : Char) : Bool :=
  c == '\n' || c == '\r' || c == '\x0b' || c == '\x0c' ||
  c == '\x1c' || c == '\x1d' || c == '\x1e' ||
  c == '\x85' || c == '\u2028' || c == '\u2029'

/-- Modelled from CPython `str.splitlines`: `cur` is the current line read so
far, in reverse. `"\r\n"` counts as a single boundary. -/
def splitlinesAux (cur : List Char) : List Char → List (List Char)
  | [] => if cur.isEmpty then [] else [cur.reverse]
  | '\r' :: '\n' :: rest => cur.reverse :: splitlinesAux [] rest
  | c :: rest =>
      if isLineBreak c then cur.reverse :: splitlinesAux [] rest
      else splitlinesAux (c :: cur) rest

/-- `s.splitlines()` as a list of lines (line breaks removed). -/
def pySplitlines (s : String) : List (List Char) :=
  splitlinesAux [] s.data

/-- `len(code_string.splitlines())`: the line count `process_module` stores in
`endLine`. -/
def lineCount (s : String) : Nat :=
  (pySplitlines s).length

/-! ## `inspect.cleandoc`, as applied by `ast.get_docstring(node, clean=True)`

`process_class` and `process_function` call `ast.get_docstring(node)`, whose
default `clean=True` runs the docstring through `inspect.cleandoc`:
expand tabs, strip the first line's leading whitespace, remove the margin
(minimum indentation of the later non-blank lines) from the later lines, and
drop leading and trailing blank lines.  Modelled from the CPython sources of
`inspect.cleandoc` and `str.expandtabs` (whitespace restricted to the ASCII
whitespace characters). -/

/-- The ASCII whitespace characters `str.lstrip()` removes. -/
def pyIsSpace (c : Char) : Bool :=
  c == ' ' || c == '\t' || c == '\n' || c == '\r' || c == '\x0b' || c == '\x0c'

/-- Modelled from CPython `str.expandtabs()` (tab size 8): `col` is the current
column; a tab becomes spaces up to the next multiple of 8, `\n` and `\r`
reset the column. -/
def expandTabsAux (col : Nat) : List Char → List Char
  | [] => []
  | c :: rest =>
      if c == '\t' then
        List.replicate (8 - col % 8) ' ' ++ expandTabsAux (col + (8 - col % 8)) rest
      else if c == '\n' || c == '\r' then
        c :: expandTabsAux 0 rest
      else
        c :: expandTabsAux (col + 1) rest

/-- `doc.expandtabs()`. -/
def expandTabs (s : List Char) : List Char :=
  expandTabsAux 0 s

/-- `doc.expandtabs().split('\n')` — CPython `str.split('\n')`: splitting the
empty string gives one empty part, and every `\n` opens a new part. -/
def splitOnNl : List Char → List (List Char)
  | [] => [[]]
  | c :: rest =>
      if c == '\n' then [] :: splitOnNl rest
      else
        match splitOnNl rest with
        | [] => [[c]]
        | line :: lines => (c :: line) :: lines

/-- `line.lstrip()`. -/
def lstrip (line : List Char) : List Char :=
  line.dropWhile pyIsSpace

/-- The margin computation of `inspect.cleandoc`: the minimum indentation of
the non-blank lines (`none` plays the role of `sys.maxsize`). -/
def marginOf (lines : List (List Char)) : Option Nat :=
  lines.foldl
    (fun acc line =>
      if (lstrip line).length ≠ 0 then
        let indent := line.length - (lstrip line).length
        match acc with
        | none => some indent
        | some m => some (min m indent)
      else acc)
    none

/-- `'\n'.join(lines)`. -/
def joinNl : List (List Char) → List Char
  | [] => []
  | [line] => line
  | line :: lines => line ++ '\n' :: joinNl lines

/-- Modelled from CPython `inspect.cleandoc`: expand tabs, split on `\n`,
lstrip the first line, cut the margin from the later lines, then drop
trailing and leading blank lines and re-join with `\n`. -/
def cleandocChars (doc : List Char) : List Char :=
  let lines := splitOnNl (expandTabs doc)
  let margin := marginOf lines.tail
  let lines :=
    match lines with
    | [] => []
    | first :: rest =>
        lstrip first ::
          (match margin with
           | some m => rest.map (fun line : List Char => line.drop m)
           | none => rest)
  let lines := (lines.reverse.dropWhile List.isEmpty).reverse
  let lines := lines.dropWhile List.isEmpty
  joinNl lines

/-- `inspect.cleandoc` on strings. -/
def cleandoc (doc : String) : String :=
  ⟨cleandocChars doc.data⟩

/-! ## The Python abstract syntax tree, as the extractor consumes it

The extractor distinguishes four shapes of statement: `ast.ClassDef`,
`ast.FunctionDef`/`ast.AsyncFunctionDef`, an expression statement whose value
is a string constant (only relevant through `ast.get_docstring`), and every
other statement kind.  Each node carries `lineno` and, when the parser
reports one, `end_lineno`. -/

/-- A Python statement, restricted to the distinctions the extractor makes. -/
inductive Stmt where
  | classDef (name : String) (body : List Stmt) (lineno : Nat) (endLineno : Option Nat)
  | funcDef (name : String) (isAsync : Bool) (body : List Stmt) (lineno : Nat)
      (endLineno : Option Nat)
  | exprConstStr (value : String) (lineno : Nat) (endLineno : Option Nat)
  | otherStmt (lineno : Nat) (endLineno : Option Nat)

/-- Modelled from CPython `ast.get_docstring(node)` restricted to the node's
body: the string constant heading the body, if any, cleaned by
`inspect.cleandoc` (the default `clean=True`). -/
def get_docstring (body : List Stmt) : Option String :=
  match body with
  | .exprConstStr s _ _ :: _ => some (cleandoc s)
  | _ => none

/-- The record `process_class`/`process_function` build per definition:
`functionDefinition` (the unparser's text), the optional `docstring`,
`functions` and `classes` (the directly nested definitions, in source
order), the reserved empty `summary`, and the line span. -/
inductive Definition where
  | mk (functionDefinition : String) (docstring : Option String)
      (functions : List Definition) (classes : List Definition)
      (summary : List String) (startLine : Nat) (endLine : Nat)

def Definition.functionDefinition : Definition → String
  | .mk f _ _ _ _ _ _ => f

def Definition.docstring : Definition → Option String
  | .mk _ d _ _ _ _ _ => d

def Definition.functions : Definition → List Definition
  | .mk _ _ fs _ _ _ _ => fs

def Definition.classes : Definition → List Definition
  | .mk _ _ _ cs _ _ _ => cs

def Definition.summary : Definition → List String
  | .mk _ _ _ _ su _ _ => su

def Definition.startLine : Definition → Nat
  | .mk _ _ _ _ _ sl _ => sl

def Definition.endLine : Definition → Nat
  | .mk _ _ _ _ _ _ el => el

@[simp] theorem Definition.functionDefinition_mk (f d fs cs su sl el) :
    (Definition.mk f d fs cs su sl el).functionDefinition = f := rfl

@[simp] theorem Definition.docstring_mk (f d fs cs su sl el) :
    (Definition.mk f d fs cs su sl el).docstring = d := rfl

@[simp] theorem Definition.functions_mk (f d fs cs su sl el) :
    (Definition.mk f d fs cs su sl el).functions = fs := rfl

@[simp] theorem Definition.classes_mk (f d fs cs su sl el) :
    (Definition.mk f d fs cs su sl el).classes = cs := rfl

@[simp] theorem Definition.summary_mk (f d fs cs su sl el) :
    (Definition.mk f d fs cs su sl el).summary = su := rfl

@[simp] theorem Definition.startLine_mk (f d fs cs su sl el) :
    (Definition.mk f d fs cs su sl el).startLine = sl := rfl

@[simp] theorem Definition.endLine_mk (f d fs cs su sl el) :
    (Definition.mk f d fs cs su sl el).endLine = el := rfl

/-- `docstring = ast.get_docstring(node); if docstring: output["docstring"] = docstring`
— the field is set only when the cleaned docstring is truthy (non-empty). -/
def docstringField (body : List Stmt) : Option String :=
  match get_docstring body with
  | some d => if d = "" then none else some d
  | none => none

mutual

/-- `process_class` / `process_function` (their bodies are identical in the
source, dispatched by `process_node`): the unparsed text, the truthy
docstring, one pass over the direct body statements appending functions and
classes in source order, `startLine = node.lineno`, and
`endLine = getattr(node, "end_lineno", node.lineno)`.  The catch-all arm
mirrors `process_node`'s `return {}` for other node kinds; the extraction
loops never reach it. -/
def processNode (unparse : Stmt → String) : Stmt → Definition
  | .classDef n body l e =>
      .mk (unparse (.classDef n body l e)) (docstringField body)
        (processBody unparse body).1 (processBody unparse body).2 [] l (e.getD l)
  | .funcDef n a body l e =>
      .mk (unparse (.funcDef n a body l e)) (docstringField body)
        (processBody unparse body).1 (processBody unparse body).2 [] l (e.getD l)
  | .exprConstStr _ _ _ => .mk "" none [] [] [] 0 0
  | .otherStmt _ _ => .mk "" none [] [] [] 0 0

/-- The `for item in node.body` loop of `process_class`/`process_function`:
function definitions (sync or async) are appended to `functions`, class
definitions to `classes`, every other statement is skipped. -/
def processBody (unparse : Stmt → String) : List Stmt → List Definition × List Definition
  | [] => ([], [])
  | s :: rest =>
      let p := processBody unparse rest
      match s with
      | .funcDef .. => (processNode unparse s :: p.1, p.2)
      | .classDef .. => (p.1, processNode unparse s :: p.2)
      | _ => p

end

/-- The name under which a statement lands in the module map, when it is a
class or function definition. -/
def defName : Stmt → Option String
  | .classDef n _ _ _ => some n
  | .funcDef n _ _ _ _ => some n
  | _ => none

/-- Modelled from CPython `dict.__setitem__` on an insertion-ordered
association list: an existing key keeps its position and gets the new value,
a new key is appended at the end. -/
def dictInsert : List (String × α) → String → α → List (String × α)
  | [], k, v => [(k, v)]
  | p :: rest, k, v =>
      if p.1 = k then (k, v) :: rest else p :: dictInsert rest k v

/-- `d[key]` lookup on the association-list model of a `dict`. -/
def lookupName (m : List (String × α)) (k : String) : Option α :=
  match m with
  | [] => none
  | p :: rest => if p.1 = k then some p.2 else lookupName rest k

/-- The `for item in node.body` loop of `process_module`, accumulating
`output["module"][item.name] = self.process_node(item, code_string)` over the
direct statements of the module body. -/
def moduleEntries (unparse : Stmt → String) :
    List Stmt → List (String × Definition) → List (String × Definition)
  | [], acc => acc
  | s :: rest, acc =>
      match defName s with
      | some n => moduleEntries unparse rest (dictInsert acc n (processNode unparse s))
      | none => moduleEntries unparse rest acc

/-- The record `process_module` builds: the reserved empty `summary`, the
optional `file` path, the name-keyed `module` map, `startLine = 1` and
`endLine = len(code_string.splitlines())`. -/
structure SourceUnit where
  summary : List String
  file : Option String
  module : List (String × Definition)
  startLine : Nat
  endLine : Nat

/-- `ExtractASTDefinitions.process_module`. -/
def process_module (unparse : Stmt → String) (body : List Stmt) (codeString : String)
    (filePath : Option String) : SourceUnit :=
  { summary := []
    file := filePath
    module := moduleEntries unparse body []
    startLine := 1
    endLine := lineCount codeString }

/-! ## Errors, the filesystem, and the extraction entry point

The error taxonomy follows the exceptions the Python code raises or lets
propagate: `FileNotFoundError` from `open`, `SyntaxError` from `ast.parse`,
`json.JSONDecodeError` from `json.loads`, and the `RuntimeError` wrapper of
`execute_rebuilt` (the specification's `NotFoundError`, `SyntaxError`,
`DecodeError` and `ExecutionError`). -/

inductive PyError where
  | notFoundError (msg : String)
  | syntaxError (msg : String)
  | decodeError (msg : String)
  | executionError (msg : String)
deriving Repr, DecidableEq

/-- `str(e)`: the message the Python f-string interpolates when re-raising. -/
def PyError.message : PyError → String
  | .notFoundError m => m
  | .syntaxError m => m
  | .decodeError m => m
  | .executionError m => m

/-- The filesystem, as the scoped `open(...).read()`/`write()` calls see it:
a partial map from path to contents. -/
def FS : Type := String → Option String

/-- The state of the filesystem after `open(path, "w").write(contents)`
(silently overwriting). -/
def writeFS (fs : FS) (path contents : String) : FS :=
  fun q => if q = path then some contents else fs q

/-- `ExtractASTDefinitions.extract_all_definitions`: read the file, parse it
(the parser is the external collaborator `parse`; a failure propagates
unchanged), and process the module root with the file path attached. -/
def extract_all_definitions (unparse : Stmt → String)
    (parse : String → Except PyError (List Stmt)) (fs : FS) (filePath : String) :
    Except PyError SourceUnit :=
  match fs filePath with
  | none => .error (.notFoundError filePath)
  | some contents =>
      match parse contents with
      | .error e => .error e
      | .ok body => .ok (process_module unparse body contents (some filePath))

/-! ## The rebuild side

`rebuild_from_json` works on the plain nested structure `json.loads`
returns.  Only the keys the rebuilder reads are modelled: per definition
entry `functionDefinition`, the legacy `defString` fallback, and
`startLine`; at top level `file`, `module`, and — for the no-`module`
branch — `functionDefinition`/`defString` of a bare definition record. -/

/-- A deserialized definition entry, as `rebuild_from_json` reads it. -/
structure RebuildEntry where
  functionDefinition : Option String
  defString : Option String
  startLine : Option Int
deriving Repr, DecidableEq

/-- A deserialized top-level structure, as `rebuild_from_json` and
`rebuild_from_dict_or_json` read it.  `module` is the insertion-ordered
name-to-entry map. -/
structure RebuildData where
  file : Option String
  module : Option (List (String × RebuildEntry))
  functionDefinition : Option String
  defString : Option String
deriving Repr, DecidableEq

/-- The text taken per entry:
`if "functionDefinition" in d: ... elif "defString" in d: ...`
(an entry with neither contributes nothing). -/
def entryText (d : RebuildEntry) : Option String :=
  match d.functionDefinition with
  | some s => some s
  | none => d.defString

/-- `lambda d: d.get("startLine", 0)` — the sort key, defaulting to 0. -/
def sortKey (d : RebuildEntry) : Int :=
  d.startLine.getD 0

/-- Stable insertion for `pySorted`: `x` goes in front of the first element
whose key is not smaller, so earlier elements win ties. -/
def stableInsert (key : α → Int) (x : α) : List α → List α
  | [] => [x]
  | y :: ys => if key x ≤ key y then x :: y :: ys else y :: stableInsert key x ys

/-- Modelled from CPython `sorted(defs, key=...)`: a stable sort, ascending
in the key. -/
def pySorted (key : α → Int) : List α → List α
  | [] => []
  | x :: xs => stableInsert key x (pySorted key xs)

/-- `DefinitionRebuilder.rebuild_from_json` after `json.loads`: with a
`module` map, sort its values by `startLine` (default 0), take each entry's
text, and `"\n\n".join` the lines; without one, the structure itself is
treated as a bare definition record. -/
def rebuild_from_json_data (data : RebuildData) : String :=
  match data.module with
  | some m =>
      String.intercalate "\n\n" ((pySorted sortKey (m.map Prod.snd)).filterMap entryText)
  | none =>
      match data.functionDefinition with
      | some s => s
      | none =>
          match data.defString with
          | some s => s
          | none => ""

/-- `DefinitionRebuilder.rebuild_from_json` including its first line
`data = json.loads(json_string)`; the decoder is the external JSON
collaborator, and its failure propagates unchanged. -/
def rebuild_from_json (decode : String → Except PyError RebuildData)
    (jsonString : String) : Except PyError String :=
  match decode jsonString with
  | .error e => .error e
  | .ok data => .ok (rebuild_from_json_data data)

/-- An opaque Python runtime value, for the namespace `exec` populates. -/
inductive PyObj where
  | mk (tag : String)
deriving Repr, DecidableEq

/-- The namespace dictionary `execute_rebuilt` passes to `exec`. -/
def PyNamespace : Type := List (String × PyObj)

/-- `namespace = {}` — the fresh, isolated scope. -/
def emptyNamespace : PyNamespace := []

/-- `DefinitionRebuilder.execute_rebuilt`: rebuild the source (a decode
failure propagates unchanged, it happens before the `try` block), then
compile-and-exec it in a fresh namespace via the external evaluator
`compileExec`; any failure there is re-raised as the uniform wrapper
`RuntimeError(f"Error executing rebuilt source code: {e}")`. -/
def execute_rebuilt (decode : String → Except PyError RebuildData)
    (compileExec : String → PyNamespace → Except PyError PyNamespace)
    (jsonString : String) : Except PyError PyNamespace :=
  match rebuild_from_json decode jsonString with
  | .error e => .error e
  | .ok sourceCode =>
      match compileExec sourceCode emptyNamespace with
      | .ok ns => .ok ns
      | .error e =>
          .error (.executionError ("Error executing rebuilt source code: " ++ e.message))

/-- `DefinitionRebuilder.rebuild_from_dict_or_json` on an already-decoded
structure: with a `file` key, read that file and write its contents
unchanged to `output_file_path` (the exact-copy path); otherwise fall back
to `rebuild_from_json` and write its result.  Returns the text together
with the filesystem after the write. -/
def rebuild_from_dict_or_json (fs : FS) (data : RebuildData) (outputFilePath : String) :
    Except PyError (String × FS) :=
  match data.file with
  | some p =>
      match fs p with
      | none => .error (.notFoundError p)
      | some originalSource =>
          .ok (originalSource, writeFS fs outputFilePath originalSource)
  | none =>
      let sourceCode := rebuild_from_json_data data
      .ok (sourceCode, writeFS fs outputFilePath sourceCode)

/-- The serialized form of an extracted `Definition`, as
`json.loads(json.dumps(...))` hands it back to the rebuilder. -/
def Definition.toRebuildEntry (d : Definition) : RebuildEntry :=
  { functionDefinition := some d.functionDefinition
    defString := none
    startLine := some (d.startLine : Int) }

/-- The serialized form of an extracted `SourceUnit`. -/
def SourceUnit.toRebuildData (su : SourceUnit) : RebuildData :=
  { file := su.file
    module := some (su.module.map (fun p => (p.1, p.2.toRebuildEntry)))
    functionDefinition := none
    defString := none }

/-! ## Properties of the stable sort model -/

theorem stableInsert_perm (key : α → Int) (x : α) (l : List α) :
    (stableInsert key x l).Perm (x :: l) := by
  induction l with
  | nil => simp [stableInsert]
  | cons y ys ih =>
      by_cases h : key x ≤ key y
      · simp [stableInsert, h]
      · simp only [stableInsert, if_neg h]
        exact (ih.cons y).trans (List.Perm.swap x y ys)

theorem pySorted_perm (key : α → Int) (l : List α) :
    (pySorted key l).Perm l := by
  induction l with
  | nil => simp [pySorted]
  | cons x xs ih =>
      exact (stableInsert_perm key x (pySorted key xs)).trans (ih.cons x)

theorem mem_stableInsert {key : α → Int} {x z : α} {l : List α} :
    z ∈ stableInsert key x l ↔ z = x ∨ z ∈ l := by
  rw [(stableInsert_perm key x l).mem_iff]
  simp

theorem stableInsert_pairwise {key : α → Int} {x : α} {l : List α}
    (h : l.Pairwise (fun a b => key a ≤ key b)) :
    (stableInsert key x l).Pairwise (fun a b => key a ≤ key b) := by
  induction l with
  | nil => simp [stableInsert]
  | cons y ys ih =>
      rcases List.pairwise_cons.mp h with ⟨hy, hys⟩
      by_cases hxy : key x ≤ key y
      · rw [stableInsert, if_pos hxy]
        refine List.pairwise_cons.mpr ⟨?_, h⟩
        intro z hz
        rcases List.mem_cons.mp hz with rfl | hz
        · exact hxy
        · exact le_trans hxy (hy z hz)
      · rw [stableInsert, if_neg hxy]
        refine List.pairwise_cons.mpr ⟨?_, ih hys⟩
        intro z hz
        rcases mem_stableInsert.mp hz with rfl | hz
        · exact le_of_lt (lt_of_not_ge hxy)
        · exact hy z hz

theorem pySorted_pairwise (key : α → Int) (l : List α) :
    (pySorted key l).Pairwise (fun a b => key a ≤ key b) := by
  induction l with
  | nil => simp [pySorted]
  | cons x xs ih => exact stableInsert_pairwise ih

theorem stableInsert_filter_key (key : α → Int) (x : α) (l : List α) (v : Int) :
    (stableInsert key x l).filter (fun y => key y == v)
      = if key x = v then x :: l.filter (fun y => key y == v)
        else l.filter (fun y => key y == v) := by
  induction l with
  | nil =>
      by_cases h : key x = v <;>
        simp [stableInsert, List.filter_cons, beq_iff_eq, h]
  | cons y ys ih =>
      by_cases hxy : key x ≤ key y
      · rw [stableInsert, if_pos hxy]
        by_cases h : key x = v <;>
          simp [List.filter_cons, beq_iff_eq, h]
      · have hyx : key y < key x := lt_of_not_ge hxy
        rw [stableInsert, if_neg hxy]
        by_cases h : key x = v
        · have hyv : ¬ (key y = v) := fun hv => absurd (hv ▸ hyx) (by simp [h])
          simp [List.filter_cons, beq_iff_eq, ih, h, hyv]
        · by_cases hyv : key y = v <;>
            simp [List.filter_cons, beq_iff_eq, ih, h, hyv]

theorem pySorted_filter_key (key : α → Int) (l : List α) (v : Int) :
    (pySorted key l).filter (fun y => key y == v) = l.filter (fun y => key y == v) := by
  induction l with
  | nil => simp [pySorted]
  | cons x xs ih =>
      rw [pySorted, stableInsert_filter_key]
      by_cases h : key x = v <;>
        simp [List.filter_cons, beq_iff_eq, h, ih]

theorem pySorted_eq_of_perm {key : α → Int} {l l₂ : List α} (hp : l.Perm l₂)
    (hd : l.Pairwise (fun a b => key a ≠ key b)) :
    pySorted key l = pySorted key l₂ := by
  have hsym : Symmetric (fun a b : α => key a ≠ key b) := fun a b h => Ne.symm h
  have hpl : (pySorted key l).Perm (pySorted key l₂) :=
    ((pySorted_perm key l).trans hp).trans (pySorted_perm key l₂).symm
  have hd₁ : (pySorted key l).Pairwise (fun a b => key a ≠ key b) :=
    ((pySorted_perm key l).pairwise_iff (fun h => Ne.symm h)).mpr hd
  have hd₂ : (pySorted key l₂).Pairwise (fun a b => key a ≠ key b) :=
    (hpl.pairwise_iff fun h => Ne.symm h).mp hd₁
  have hs₁ : (pySorted key l).Pairwise (fun a b => key a < key b) :=
    ((pySorted_pairwise key l).and hd₁).imp fun h => lt_of_le_of_ne h.1 h.2
  have hs₂ : (pySorted key l₂).Pairwise (fun a b => key a < key b) :=
    ((pySorted_pairwise key l₂).and hd₂).imp fun h => lt_of_le_of_ne h.1 h.2
  haveI : IsAntisymm α (fun a b => key a < key b) :=
    ⟨fun a b h h₂ => absurd (lt_trans h h₂) (lt_irrefl _)⟩
  exact List.eq_of_perm_of_sorted hpl hs₁ hs₂

theorem filterMap_eq_map_of_isSome {f : α → Option β} {l : List α} (d : β)
    (h : ∀ x ∈ l, (f x).isSome) :
    l.filterMap f = l.map (fun x => (f x).getD d) := by
  induction l with
  | nil => simp
  | cons x xs ih =>
      have hx := h x (by simp)
      rcases Option.isSome_iff_exists.mp hx with ⟨b, hb⟩
      simp [List.filterMap_cons, hb, ih fun y hy => h y (by simp [hy])]

/-! ## Properties of the insertion-ordered map model -/

theorem lookupName_dictInsert (m : List (String × α)) (k : String) (v : α) (q : String) :
    lookupName (dictInsert m k v) q = if q = k then some v else lookupName m q := by
  induction m with
  | nil =>
      by_cases h : q = k
      · simp [dictInsert, lookupName, h]
      · have hk : ¬ (k = q) := fun h₂ => h h₂.symm
        simp [dictInsert, lookupName, h, hk]
  | cons p rest ih =>
      by_cases hp : p.1 = k
      · rw [dictInsert, if_pos hp]
        by_cases hq : q = k
        · simp [lookupName, hq]
        · have hk : ¬ (k = q) := fun h₂ => hq h₂.symm
          have hpq : ¬ (p.1 = q) := fun h₂ => hq (h₂.symm.trans hp)

          simp [lookupName, hq, hk, hpq]
      · rw [dictInsert, if_neg hp]
        by_cases hq : p.1 = q
        · have : ¬ (q = k) := fun h => hp (hq.trans h)
          simp [lookupName, hq, this]
        · simp [lookupName, hq, ih]

/-! ## Structure of the extraction output -/

/-- The last class/function definition named `q` among the statements, in
source order. -/
def lastDefNamed (q : String) : List Stmt → Option Stmt
  | [] => none
  | s :: rest =>
      match lastDefNamed q rest with
      | some t => some t
      | none => if defName s = some q then some s else none

/-- A statement the class/function body loop appends to `functions`. -/
def isFuncStmt : Stmt → Bool
  | .funcDef .. => true
  | _ => false

/-- A statement the class/function body loop appends to `classes`. -/
def isClassStmt : Stmt → Bool
  | .classDef .. => true
  | _ => false

theorem processBody_eq (unparse : Stmt → String) (body : List Stmt) :
    processBody unparse body
      = ((body.filter isFuncStmt).map (processNode unparse),
         (body.filter isClassStmt).map (processNode unparse)) := by
  induction body with
  | nil => simp [processBody]
  | cons s rest ih =>
      cases s <;>
        simp [processBody, ih, List.filter_cons, isFuncStmt, isClassStmt]

theorem lookupName_moduleEntries (unparse : Stmt → String) (body : List Stmt)
    (acc : List (String × Definition)) (q : String) :
    lookupName (moduleEntries unparse body acc) q
      = match lastDefNamed q body with
        | some s => some (processNode unparse s)
        | none => lookupName acc q := by
  induction body generalizing acc with
  | nil => simp [moduleEntries, lastDefNamed]
  | cons s rest ih =>
      cases hs : defName s with
      | none =>
          have : lastDefNamed q (s :: rest)
              = lastDefNamed q rest := by
            rw [lastDefNamed]
            cases lastDefNamed q rest <;> simp [hs]
          rw [moduleEntries, hs, ih, this]
      | some n =>
          rw [moduleEntries, hs, ih, lookupName_dictInsert, lastDefNamed]
          cases hrest : lastDefNamed q rest with
          | some t => rfl
          | none =>
              by_cases hq : q = n
              · simp [hs, hq]
              · have : ¬ (defName s = some q) := by
                  rw [hs]
                  exact fun h => hq (Option.some.inj h).symm
                simp [this, hq]

theorem lastDefNamed_eq_getLast (q : String) (body : List Stmt) :
    lastDefNamed q body = (body.filter (fun s => defName s == some q)).getLast? := by
  induction body with
  | nil => simp [lastDefNamed]
  | cons s rest ih =>
      rw [lastDefNamed, ih, List.filter_cons]
      by_cases hs : defName s = some q
      · have hb : (defName s == some q) = true := by simp [hs]
        rw [if_pos hb, List.getLast?_cons]
        cases (rest.filter (fun s => defName s == some q)).getLast? with
        | some t => rfl
        | none => rw [if_pos hs]; rfl
      · have hb : ¬ ((defName s == some q) = true) := by simp [hs]
        rw [if_neg hb]
        cases (rest.filter (fun s => defName s == some q)).getLast? with
        | some t => rfl
        | none => rw [if_neg hs]

set_option maxHeartbeats 1600000 in
theorem splitlinesAux_ne_nil (cur l : List Char) (h : l ≠ [] ∨ cur ≠ []) :
    splitlinesAux cur l ≠ [] := by
  induction cur, l using splitlinesAux.induct with
  | case1 cur hcur =>
      rcases h with h | h
      · exact absurd rfl h
      · exact absurd (List.isEmpty_iff.mp hcur) h
  | case2 cur hcur =>
      rw [splitlinesAux.eq_1, if_neg (by simp [hcur])]
      simp
  | case3 cur rest ih =>
      rw [splitlinesAux.eq_2]
      simp
  | case4 cur c rest hcond hbr ih =>
      rw [splitlinesAux.eq_3 cur c rest hcond, if_pos hbr]
      simp
  | case5 cur c rest hcond hbr ih =>
      rw [splitlinesAux.eq_3 cur c rest hcond, if_neg hbr]
      exact ih (Or.inr (by simp))

theorem lineCount_pos (code : String) (h : code ≠ "") : 0 < lineCount code := by
  have hd : code.data ≠ [] := by
    intro h₂
    exact h (by cases code; simp_all)
  have := splitlinesAux_ne_nil [] code.data (Or.inl hd)
  rw [lineCount, pySplitlines]
  exact List.length_pos.mpr this

theorem expandTabsAux_of_plain (l : List Char) (h : ∀ c ∈ l, c ≠ '\t') :
    ∀ col, expandTabsAux col l = l := by
  induction l with
  | nil => intro col; rfl
  | cons c rest ih =>
      intro col
      have hc : ¬ (c == '\t') = true := by
        simpa using h c (by simp)
      have hr : ∀ c ∈ rest, c ≠ '\t' := fun x hx => h x (by simp [hx])
      rw [expandTabsAux, if_neg hc]
      by_cases hn : (c == '\n' || c == '\r') = true
      · rw [if_pos hn, ih hr]
      · rw [if_neg hn, ih hr]

theorem splitOnNl_of_no_nl (l : List Char) (h : ∀ c ∈ l, c ≠ '\n') :
    splitOnNl l = [l] := by
  induction l with
  | nil => rfl
  | cons c rest ih =>
      have hc : ¬ (c == '\n') = true := by
        simpa using h c (by simp)
      rw [splitOnNl, if_neg hc, ih fun x hx => h x (by simp [hx])]

theorem lstrip_of_head (l : List Char)
    (h : ∀ c, l.head? = some c → pyIsSpace c = false) : lstrip l = l := by
  cases l with
  | nil => rfl
  | cons c rest =>
      rw [lstrip, List.dropWhile_cons, if_neg (by simp [h c rfl])]

/-- On a one-line literal with no tab and no leading whitespace,
`inspect.cleandoc` is the identity: such docstrings are captured verbatim. -/
theorem cleandoc_of_plain_single_line (s : String)
    (hnl : ∀ c ∈ s.data, c ≠ '\n') (htab : ∀ c ∈ s.data, c ≠ '\t')
    (hhead : ∀ c, s.data.head? = some c → pyIsSpace c = false) :
    cleandoc s = s := by
  rw [cleandoc]
  have h₁ : cleandocChars s.data = s.data := by
    rw [cleandocChars, expandTabs, expandTabsAux_of_plain s.data htab 0,
      splitOnNl_of_no_nl s.data hnl]
    cases hs : s.data with
    | nil => rfl
    | cons c rest =>
        have hstrip : lstrip (c :: rest) = c :: rest := by
          rw [← hs]
          exact lstrip_of_head s.data (hs ▸ hhead)
        simp only [List.tail_cons, marginOf, List.foldl_nil, hstrip]
        simp [joinNl]
  rw [h₁]

/-- The parser's guarantee on position metadata: a reported `end_lineno` is
never smaller than `lineno`, recursively through the bodies. -/
inductive StmtWF : Stmt → Prop where
  | classDef {n : String} {body : List Stmt} {l : Nat} {e : Option Nat}
      (he : ∀ m, e = some m → l ≤ m) (hb : ∀ s ∈ body, StmtWF s) :
      StmtWF (.classDef n body l e)
  | funcDef {n : String} {a : Bool} {body : List Stmt} {l : Nat} {e : Option Nat}
      (he : ∀ m, e = some m → l ≤ m) (hb : ∀ s ∈ body, StmtWF s) :
      StmtWF (.funcDef n a body l e)
  | exprConstStr {v : String} {l : Nat} {e : Option Nat} : StmtWF (.exprConstStr v l e)
  | otherStmt {l : Nat} {e : Option Nat} : StmtWF (.otherStmt l e)

/-- `startLine ≤ endLine`, recursively through `functions` and `classes`. -/
inductive DefLinesOK : Definition → Prop where
  | mk {f : String} {d : Option String} {fs cs : List Definition}
      {su : List String} {sl el : Nat} (h : sl ≤ el)
      (hf : ∀ x ∈ fs, DefLinesOK x) (hc : ∀ x ∈ cs, DefLinesOK x) :
      DefLinesOK (.mk f d fs cs su sl el)

theorem processNode_linesOK (unparse : Stmt → String) {s : Stmt} (h : StmtWF s) :
    DefLinesOK (processNode unparse s) := by
  induction h with
  | @classDef n body l e he hb ih =>
      rw [processNode.eq_def]
      refine DefLinesOK.mk ?_ ?_ ?_
      · cases e with
        | none => simp
        | some m => simpa using he m rfl
      · intro x hx
        rw [processBody_eq] at hx
        rcases List.mem_map.mp hx with ⟨t, ht, rfl⟩
        exact ih t (List.mem_filter.mp ht).1
      · intro x hx
        rw [processBody_eq] at hx
        rcases List.mem_map.mp hx with ⟨t, ht, rfl⟩
        exact ih t (List.mem_filter.mp ht).1
  | @funcDef n a body l e he hb ih =>
      rw [processNode.eq_def]
      refine DefLinesOK.mk ?_ ?_ ?_
      · cases e with
        | none => simp
        | some m => simpa using he m rfl
      · intro x hx
        rw [processBody_eq] at hx
        rcases List.mem_map.mp hx with ⟨t, ht, rfl⟩
        exact ih t (List.mem_filter.mp ht).1
      · intro x hx
        rw [processBody_eq] at hx
        rcases List.mem_map.mp hx with ⟨t, ht, rfl⟩
        exact ih t (List.mem_filter.mp ht).1
  | exprConstStr =>
      exact DefLinesOK.mk (le_refl 0) (by simp) (by simp)
  | otherStmt =>
      exact DefLinesOK.mk (le_refl 0) (by simp) (by simp)

theorem lastDefNamed_isSome_iff (q : String) (body : List Stmt) :
    (lastDefNamed q body).isSome ↔ ∃ s ∈ body, defName s = some q := by
  induction body with
  | nil => simp [lastDefNamed]
  | cons s rest ih =>
      rw [lastDefNamed]
      cases hrest : lastDefNamed q rest with
      | some t =>
          simp only [Option.isSome_some, true_iff]
          rcases ih.mp (by simp [hrest]) with ⟨u, hu, hq⟩
          exact ⟨u, List.mem_cons_of_mem s hu, hq⟩
      | none =>
          have hnone : ∀ u ∈ rest, ¬ (defName u = some q) := by
            intro u hu hq
            have h₂ := ih.mpr ⟨u, hu, hq⟩
            rw [hrest] at h₂
            simp at h₂
          by_cases hs : defName s = some q
          · simp [hs]
          · rw [if_neg hs]
            simp only [Option.isSome_none, Bool.false_eq_true, false_iff]
            rintro ⟨u, hu, hq⟩
            rcases List.mem_cons.mp hu with rfl | hu
            · exact hs hq
            · exact hnone u hu hq

/-! ## Concrete instances used by witnesses and counterexamples -/

/-- A concrete unparser (the unparser is an external collaborator; the
extraction structure does not depend on its output). -/
def unparse0 : Stmt → String := fun _ => ""

/-! ## The claims -/

/-- C4: Extracting an empty source text yields a SourceUnit with an empty
definitions map, `startLine = 1` and `endLine = 0` (the parser returns an
empty body for the empty text); and for every source text, the SourceUnit's
`startLine` is 1 and its `endLine` equals the total line count of the
source text. -/
theorem empty_input_boundary (unparse : Stmt → String) (body : List Stmt)
    (code : String) (filePath : Option String) :
    process_module unparse [] "" filePath
      = { summary := [], file := filePath, module := [], startLine := 1, endLine := 0 }
    ∧ (process_module unparse body code filePath).startLine = 1
    ∧ (process_module unparse body code filePath).endLine = lineCount code := by
  exact ⟨rfl, rfl, rfl⟩

/-- C7: When several sibling definitions of the module body share a name,
the extracted `module` map silently keeps exactly the value of the last one
in source order (extraction is total: no error is raised). -/
theorem duplicate_names_keep_last (unparse : Stmt → String) (body : List Stmt)
    (code : String) (filePath : Option String) (q : String) :
    lookupName (process_module unparse body code filePath).module q
      = (lastDefNamed q body).map (processNode unparse)
    ∧ lastDefNamed q body
      = (body.filter (fun s => defName s == some q)).getLast? := by
  constructor
  · have h₁ : (process_module unparse body code filePath).module
        = moduleEntries unparse body [] := rfl
    rw [h₁, lookupName_moduleEntries]
    cases lastDefNamed q body <;> simp [lookupName]
  · exact lastDefNamed_eq_getLast q body

/-- C8: The `module` map contains exactly the names of the class/function
definitions that are direct statements of the module body (every other
statement kind is ignored, with no error and no record), and a Definition's
`functions`/`classes` sequences are exactly the directly nested function
and class definitions of its body, in source order. -/
theorem direct_children_exactly (unparse : Stmt → String) :
    (∀ body code filePath q,
        (lookupName (process_module unparse body code filePath).module q).isSome
          ↔ ∃ s ∈ body, defName s = some q)
    ∧ (∀ n body l e,
        (processNode unparse (.classDef n body l e)).functions
            = (body.filter isFuncStmt).map (processNode unparse)
          ∧ (processNode unparse (.classDef n body l e)).classes
            = (body.filter isClassStmt).map (processNode unparse))
    ∧ (∀ n a body l e,
        (processNode unparse (.funcDef n a body l e)).functions
            = (body.filter isFuncStmt).map (processNode unparse)
          ∧ (processNode unparse (.funcDef n a body l e)).classes
            = (body.filter isClassStmt).map (processNode unparse)) := by
  refine ⟨?_, ?_, ?_⟩
  · intro body code filePath q
    have h₁ : (process_module unparse body code filePath).module
        = moduleEntries unparse body [] := rfl
    rw [h₁, lookupName_moduleEntries, ← lastDefNamed_isSome_iff]
    cases lastDefNamed q body <;> simp [lookupName]
  · intro n body l e
    constructor <;> simp [processNode, processBody_eq]
  · intro n a body l e
    constructor <;> simp [processNode, processBody_eq]

/-- C10: A class or function whose body begins with the empty string
literal gets no `docstring` field at all: presence is decided by the
truthiness of the extracted docstring (here `some ""`), not by the presence
of a leading string literal. -/
theorem empty_docstring_truthiness (unparse : Stmt → String) (n : String) (a : Bool)
    (l : Nat) (e : Option Nat) (sl : Nat) (se : Option Nat) (rest : List Stmt) :
    (processNode unparse (.funcDef n a (.exprConstStr "" sl se :: rest) l e)).docstring
        = none
    ∧ (processNode unparse (.classDef n (.exprConstStr "" sl se :: rest) l e)).docstring
        = none
    ∧ get_docstring (.exprConstStr "" sl se :: rest) = some "" := by
  have hc : cleandoc "" = "" := rfl
  refine ⟨?_, ?_, ?_⟩
  · simp [processNode, docstringField, get_docstring, hc]
  · simp [processNode, docstringField, get_docstring, hc]
  · rw [get_docstring, hc]

/-- C1: For a source file whose extraction was given a file path (so the
structure carries the `file` key), `rebuild_from_dict_or_json` returns
exactly the file's contents, writes exactly those contents to the output
path, and does not invoke text regeneration (the result is the same for
every value of the `module` field). -/
theorem rebuild_exact_round_trip (unparse : Stmt → String)
    (parse : String → Except PyError (List Stmt)) (fs : FS)
    (filePath outputPath contents : String) (body : List Stmt)
    (hread : fs filePath = some contents)
    (hparse : parse contents = .ok body) :
    extract_all_definitions unparse parse fs filePath
        = .ok (process_module unparse body contents (some filePath))
    ∧ rebuild_from_dict_or_json fs
          (process_module unparse body contents (some filePath)).toRebuildData outputPath
        = .ok (contents, writeFS fs outputPath contents)
    ∧ writeFS fs outputPath contents outputPath = some contents
    ∧ (∀ m, rebuild_from_dict_or_json fs
          { (process_module unparse body contents (some filePath)).toRebuildData with
              module := m } outputPath
        = .ok (contents, writeFS fs outputPath contents)) := by
  refine ⟨?_, ?_, ?_, ?_⟩
  · rw [extract_all_definitions, hread]
    simp [hparse]
  · simp [rebuild_from_dict_or_json, SourceUnit.toRebuildData, process_module, hread]
  · rw [writeFS, if_pos rfl]
  · intro m
    simp [rebuild_from_dict_or_json, SourceUnit.toRebuildData, process_module, hread]

/-- Witness for C1 at a concrete filesystem, parser and file. -/
theorem rebuild_exact_round_trip_witness :
    rebuild_from_dict_or_json
        (fun q => if q = "example.py" then some "def add(a, b):\n    return a + b\n"
                  else none)
        (process_module unparse0 [.funcDef "add" false [.otherStmt 2 (some 2)] 1 (some 2)]
          "def add(a, b):\n    return a + b\n" (some "example.py")).toRebuildData "out.py"
      = .ok ("def add(a, b):\n    return a + b\n",
          writeFS
            (fun q => if q = "example.py" then some "def add(a, b):\n    return a + b\n"
                      else none)
            "out.py" "def add(a, b):\n    return a + b\n") :=
  (rebuild_exact_round_trip unparse0
      (fun _ => .ok [.funcDef "add" false [.otherStmt 2 (some 2)] 1 (some 2)])
      (fun q => if q = "example.py" then some "def add(a, b):\n    return a + b\n"
                else none)
      "example.py" "out.py" "def add(a, b):\n    return a + b\n"
      [.funcDef "add" false [.otherStmt 2 (some 2)] 1 (some 2)]
      (by simp) rfl).2.1

/-- C9: `rebuild_from_json` decodes first; on text the JSON decoder rejects,
it fails with exactly that `DecodeError`, before any definition is
emitted. -/
theorem rebuild_from_json_decode_error
    (decode : String → Except PyError RebuildData) (s msg : String)
    (h : decode s = .error (.decodeError msg)) :
    rebuild_from_json decode s = .error (.decodeError msg) := by
  rw [rebuild_from_json, h]

/-- Witness for C9 at a concrete decoder and input. -/
theorem rebuild_from_json_decode_error_witness :
    rebuild_from_json
        (fun _ => .error (.decodeError "Expecting value: line 1 column 1 (char 0)"))
        "invalid json"
      = .error (.decodeError "Expecting value: line 1 column 1 (char 0)") :=
  rebuild_from_json_decode_error
    (fun _ => .error (.decodeError "Expecting value: line 1 column 1 (char 0)"))
    "invalid json" "Expecting value: line 1 column 1 (char 0)" rfl

/-- C6: Any compile- or run-time failure of the rebuilt code is re-raised
uniformly as the `ExecutionError` wrapper carrying the original failure's
message (never the original error object itself); on success,
`execute_rebuilt` returns the bindings produced in the fresh, isolated
namespace. -/
theorem execute_rebuilt_error_wrapping
    (decode : String → Except PyError RebuildData)
    (compileExec : String → PyNamespace → Except PyError PyNamespace)
    (s : String) (data : RebuildData)
    (hdecode : decode s = .ok data) :
    (∀ e, compileExec (rebuild_from_json_data data) emptyNamespace = .error e →
        execute_rebuilt decode compileExec s
            = .error (.executionError
                ("Error executing rebuilt source code: " ++ e.message))
          ∧ execute_rebuilt decode compileExec s ≠ .error e)
    ∧ (∀ ns, compileExec (rebuild_from_json_data data) emptyNamespace = .ok ns →
        execute_rebuilt decode compileExec s = .ok ns) := by
  have hsrc : rebuild_from_json decode s = .ok (rebuild_from_json_data data) := by
    rw [rebuild_from_json, hdecode]
  constructor
  · intro e he
    constructor
    · rw [execute_rebuilt, hsrc]
      simp [he]
    · rw [execute_rebuilt, hsrc]
      simp only [he]
      intro hcontra
      have h₂ : PyError.executionError
          ("Error executing rebuilt source code: " ++ e.message) = e := by
        injection hcontra
      cases e with
      | executionError m =>
          have h₃ : "Error executing rebuilt source code: " ++ m = m := by
            injection h₂
          have h₄ := congrArg String.length h₃
          rw [String.length_append] at h₄
          have h₅ : ("Error executing rebuilt source code: " : String).length = 37 := rfl
          omega
      | notFoundError m => exact PyError.noConfusion h₂
      | syntaxError m => exact PyError.noConfusion h₂
      | decodeError m => exact PyError.noConfusion h₂
  · intro ns hns
    rw [execute_rebuilt, hsrc]
    simp [hns]

/-- Witness for C6 at a concrete decoder and failing evaluator. -/
theorem execute_rebuilt_error_wrapping_witness :
    execute_rebuilt (fun _ => .ok ⟨none, some [], none, none⟩)
        (fun _ _ => .error (.syntaxError "invalid syntax")) "any json text"
      = .error (.executionError "Error executing rebuilt source code: invalid syntax") :=
  ((execute_rebuilt_error_wrapping (fun _ => .ok ⟨none, some [], none, none⟩)
      (fun _ _ => .error (.syntaxError "invalid syntax")) "any json text"
      ⟨none, some [], none, none⟩ rfl).1 (.syntaxError "invalid syntax") rfl).1

/-- C2: With a top-level `module` map whose entries all carry a text,
`rebuild_from_json` returns the texts joined by exactly one blank line
(`"\n\n"`), in ascending `startLine` order, with the sort stable (an entry
keeps its position relative to entries of equal `startLine`: filtering any
fixed key value gives back the map order), the text being
`functionDefinition` with `defString` as fallback; and whenever the
`startLine` keys are pairwise distinct, the output is independent of the
insertion order of the map. -/
theorem rebuild_ordering (fileF fd ds : Option String)
    (m : List (String × RebuildEntry))
    (htext : ∀ p ∈ m, (entryText p.2).isSome) :
    rebuild_from_json_data ⟨fileF, some m, fd, ds⟩
        = String.intercalate "\n\n"
            ((pySorted sortKey (m.map Prod.snd)).map (fun d => (entryText d).getD ""))
    ∧ (pySorted sortKey (m.map Prod.snd)).Perm (m.map Prod.snd)
    ∧ (pySorted sortKey (m.map Prod.snd)).Pairwise (fun a b => sortKey a ≤ sortKey b)
    ∧ (∀ v : Int, (pySorted sortKey (m.map Prod.snd)).filter (fun d => sortKey d == v)
          = (m.map Prod.snd).filter (fun d => sortKey d == v))
    ∧ (∀ d : RebuildEntry, ∀ t, d.functionDefinition = some t → entryText d = some t)
    ∧ (∀ d : RebuildEntry, d.functionDefinition = none → entryText d = d.defString)
    ∧ (∀ m₂ : List (String × RebuildEntry),
          (m₂.map Prod.snd).Perm (m.map Prod.snd) →
          (m.map Prod.snd).Pairwise (fun a b => sortKey a ≠ sortKey b) →
          rebuild_from_json_data ⟨fileF, some m₂, fd, ds⟩
            = rebuild_from_json_data ⟨fileF, some m, fd, ds⟩) := by
  have hrw : ∀ m₃ : List (String × RebuildEntry),
      rebuild_from_json_data ⟨fileF, some m₃, fd, ds⟩
        = String.intercalate "\n\n"
            ((pySorted sortKey (m₃.map Prod.snd)).filterMap entryText) :=
    fun m₃ => rfl
  refine ⟨?_, pySorted_perm _ _, pySorted_pairwise _ _, pySorted_filter_key _ _, ?_, ?_, ?_⟩
  · rw [hrw m, filterMap_eq_map_of_isSome ""]
    intro d hd
    have hd₂ : d ∈ m.map Prod.snd :=
      ((pySorted_perm sortKey (m.map Prod.snd)).mem_iff).mp hd
    rcases List.mem_map.mp hd₂ with ⟨p, hp, rfl⟩
    exact htext p hp
  · intro d t ht
    rw [entryText, ht]
  · intro d ht
    rw [entryText, ht]
  · intro m₂ hperm hdist
    rw [hrw m, hrw m₂,
      pySorted_eq_of_perm hperm (((hperm.symm).pairwise_iff fun h => Ne.symm h).mp hdist)]

/-- Witness for C2 at a concrete two-entry map inserted out of source
order. -/
theorem rebuild_ordering_witness :
    rebuild_from_json_data
        ⟨none,
          some [("g", ⟨some "def g():\n    pass", none, some 3⟩),
                ("f", ⟨some "def f():\n    pass", none, some 1⟩)],
          none, none⟩
      = String.intercalate "\n\n"
          ((pySorted sortKey
              ([("g", (⟨some "def g():\n    pass", none, some 3⟩ : RebuildEntry)),
                ("f", ⟨some "def f():\n    pass", none, some 1⟩)].map Prod.snd)).map
            (fun d => (entryText d).getD "")) :=
  (rebuild_ordering none none none
      [("g", ⟨some "def g():\n    pass", none, some 3⟩),
       ("f", ⟨some "def f():\n    pass", none, some 1⟩)]
      (by decide)).1

/-- C3 as stated is violated at the SourceUnit of an empty source text:
extraction yields `startLine = 1` and `endLine = 0` there, so
`startLine ≤ endLine` fails for that record. -/
theorem line_span_counterexample :
    (process_module unparse0 [] "" none).startLine = 1
    ∧ (process_module unparse0 [] "" none).endLine = 0
    ∧ ¬ ((process_module unparse0 [] "" none).startLine
          ≤ (process_module unparse0 [] "" none).endLine) := by
  exact ⟨rfl, rfl, by decide⟩

/-- C3, amended: every `Definition` the extractor produces satisfies
`startLine ≤ endLine` (the parser guarantees `lineno ≤ end_lineno` when the
latter is reported, and `endLine` falls back to `startLine` when it is
not), and the SourceUnit satisfies `startLine ≤ endLine` whenever the
source text is nonempty; for the empty source the SourceUnit has
`startLine = 1 > 0 = endLine`. -/
theorem line_span_amended (unparse : Stmt → String) :
    (∀ s : Stmt, StmtWF s → DefLinesOK (processNode unparse s))
    ∧ (∀ n body l, (processNode unparse (.classDef n body l none)).endLine
          = (processNode unparse (.classDef n body l none)).startLine)
    ∧ (∀ n a body l, (processNode unparse (.funcDef n a body l none)).endLine
          = (processNode unparse (.funcDef n a body l none)).startLine)
    ∧ (∀ body code filePath, code ≠ "" →
        (process_module unparse body code filePath).startLine
          ≤ (process_module unparse body code filePath).endLine) := by
  refine ⟨fun s h => processNode_linesOK unparse h, ?_, ?_, ?_⟩
  · intro n body l
    simp [processNode]
  · intro n a body l
    simp [processNode]
  · intro body code filePath h
    have h₁ : (process_module unparse body code filePath).startLine = 1 := rfl
    have h₂ : (process_module unparse body code filePath).endLine = lineCount code := rfl
    rw [h₁, h₂]
    exact lineCount_pos code h

/-- Witness for C3's amended statement at a concrete nested definition and
a concrete nonempty source. -/
theorem line_span_amended_witness :
    DefLinesOK (processNode unparse0
        (.classDef "C" [.funcDef "m" false [.otherStmt 3 (some 3)] 2 (some 3)] 1 (some 3)))
    ∧ (process_module unparse0 [] "x = 1\n" none).startLine
        ≤ (process_module unparse0 [] "x = 1\n" none).endLine :=
  ⟨(line_span_amended unparse0).1 _
      (StmtWF.classDef (fun m hm => by injection hm with h; omega)
        (fun s hs => by
          rcases List.mem_singleton.mp hs with rfl
          exact StmtWF.funcDef (fun m hm => by injection hm with h; omega)
            (fun t ht => by
              rcases List.mem_singleton.mp ht with rfl
              exact StmtWF.otherStmt))),
    (line_span_amended unparse0).2.2.2 [] "x = 1\n" none (by decide)⟩

/-- C5 as stated is violated: a body beginning with the string literal
`"  hi"` gets docstring `"hi"` — the `inspect.cleandoc` normalisation of
`ast.get_docstring`, not the literal verbatim. -/
theorem docstring_verbatim_counterexample :
    (processNode unparse0
        (.funcDef "f" false [.exprConstStr "  hi" 2 (some 2)] 1 (some 2))).docstring
      = some "hi"
    ∧ some "hi" ≠ some ("  hi" : String) := by
  constructor
  · rfl
  · decide

/-- C5, amended: the `docstring` field carries the `inspect.cleandoc`
normalisation of the leading string literal when that normalisation is
nonempty; it is absent when the body does not begin with a string literal,
and also when the normalisation is empty.  For a one-line literal with no
tab and no leading whitespace the normalisation is the identity, so such
docstrings are captured verbatim. -/
theorem docstring_cleandoc_amended (unparse : Stmt → String) (n : String) (a : Bool)
    (body : List Stmt) (l : Nat) (e : Option Nat) :
    (∀ t sl se rest, body = .exprConstStr t sl se :: rest →
        ((cleandoc t ≠ "" →
            (processNode unparse (.classDef n body l e)).docstring = some (cleandoc t)
            ∧ (processNode unparse (.funcDef n a body l e)).docstring = some (cleandoc t))
          ∧ (cleandoc t = "" →
            (processNode unparse (.classDef n body l e)).docstring = none
            ∧ (processNode unparse (.funcDef n a body l e)).docstring = none)))
    ∧ (get_docstring body = none →
        (processNode unparse (.classDef n body l e)).docstring = none
        ∧ (processNode unparse (.funcDef n a body l e)).docstring = none)
    ∧ (∀ t : String, (∀ c ∈ t.data, c ≠ '\n') → (∀ c ∈ t.data, c ≠ '\t') →
        (∀ c, t.data.head? = some c → pyIsSpace c = false) → cleandoc t = t) := by
  refine ⟨?_, ?_, fun t h₁ h₂ h₃ => cleandoc_of_plain_single_line t h₁ h₂ h₃⟩
  · rintro t sl se rest rfl
    constructor
    · intro hne
      constructor <;> simp [processNode, docstringField, get_docstring, hne]
    · intro heq
      constructor <;> simp [processNode, docstringField, get_docstring, heq]
  · intro hnone
    constructor <;> simp [processNode, docstringField, hnone]

/-- Witness for C5's amended statement at a concrete indented docstring and
a concrete plain docstring. -/
theorem docstring_cleandoc_amended_witness :
    (processNode unparse0
        (.funcDef "f" false [.exprConstStr "  hi" 2 (some 2)] 1 (some 2))).docstring
      = some (cleandoc "  hi")
    ∧ cleandoc "Say hello" = "Say hello" :=
  ⟨(((docstring_cleandoc_amended unparse0 "f" false
        [.exprConstStr "  hi" 2 (some 2)] 1 (some 2)).1
      "  hi" 2 (some 2) [] rfl).1 (by decide)).2,
    (docstring_cleandoc_amended unparse0 "f" false [] 1 none).2.2 "Say hello"
      (by decide) (by decide) (by decide)⟩

end JRAG
